import Mathlib

/-!
Verification of the ingestion, normalization and markdown-safety pipeline of
the llm-log-viewer application (src/main.rs), as a shallow embedding.

Text is embedded as `List Char` (Rust `&str` iterated via `chars()`); the
functions below are translated line by line from src/main.rs.  The external
serde_json decoders and the UTF-8 validity check of `std::str::from_utf8`
are third-party library calls, so they are taken as abstract parameters
(`Text → Option RawMsg` for one JSONL line, `Text → Option (List RawMsg)`
for the whole-buffer array decode, `List Nat → Option Text` for UTF-8
decoding of a byte buffer).  The Unicode character classes used by Rust's
`char::is_whitespace` are embedded exactly (the White_Space list);
`char::is_alphanumeric`, `char::to_lowercase` and `char::to_uppercase` are
embedded on the ASCII range (the full Unicode tables are out of scope; no
claim depends on non-ASCII letter classification).
-/

namespace LogViewer

/-- Chat text, as the list of its Unicode scalar values. -/
abbrev Text := List Char

/-- The backtick character (avoiding a literal backtick in code). -/
def btick : Char := Char.ofNat 96

/-- U+200B ZERO WIDTH SPACE, inserted by the sanitizer to defuse a fence. -/
def zwsp : Char := Char.ofNat 0x200B

/-- Rust `char::is_whitespace`: the Unicode White_Space property, exactly. -/
def rustIsWhitespace (c : Char) : Bool :=
  let n := c.toNat
  n = 0x09 || n = 0x0A || n = 0x0B || n = 0x0C || n = 0x0D || n = 0x20 ||
  n = 0x85 || n = 0xA0 || n = 0x1680 || (0x2000 ≤ n && n ≤ 0x200A) ||
  n = 0x2028 || n = 0x2029 || n = 0x202F || n = 0x205F || n = 0x3000

/-- Rust `char::is_alphanumeric`, on the ASCII range (ASCII letters and
digits; the full Unicode Alphabetic/Nd/Nl/No tables are out of scope). -/
def rustIsAlphanumeric (c : Char) : Bool :=
  c.isAlpha || c.isDigit

/-- Rust `str::trim_start`. -/
def trimStart (l : Text) : Text := l.dropWhile rustIsWhitespace

/-- Rust `str::trim_end`. -/
def trimEnd (l : Text) : Text := (l.reverse.dropWhile rustIsWhitespace).reverse

/-- Rust `str::trim`. -/
def rustTrim (l : Text) : Text := trimEnd (trimStart l)

/-- Rust `char::to_lowercase`, on the ASCII range (`String::to_lowercase`
maps it over the characters). -/
def rustCharLower (c : Char) : Char := c.toLower

/-- Rust `String::to_lowercase`, on the ASCII range. -/
def rustToLowercase (s : Text) : Text := s.map rustCharLower

/-- Drop one trailing carriage return, as Rust `str::lines` does for a line
terminated by `\r\n`. -/
def dropFinalCr (l : Text) : Text :=
  if l.getLast? = some '\r' then l.dropLast else l

/-- Worker for `rustLines`: accumulate the current line (reversed) until a
`'\n'` terminator; a terminated line has one trailing `'\r'` stripped; the
final line ending is optional and an input ending in `'\n'` produces no
extra empty line. -/
def rustLinesGo : Text → Text → List Text
  | acc, [] => [acc.reverse]
  | acc, c :: rest =>
    if c = '\n' then
      dropFinalCr acc.reverse :: (if rest = [] then [] else rustLinesGo [] rest)
    else
      rustLinesGo (c :: acc) rest

/-- Rust `str::lines`. -/
def rustLines (s : Text) : List Text :=
  match s with
  | [] => []
  | _ => rustLinesGo [] s

/-- `Vec::<String>::join("\n")`. -/
def joinNl : List Text → Text
  | [] => []
  | [l] => l
  | l :: rest => l ++ '\n' :: joinNl rest

/-- A fence marker: three backticks. -/
def fence : Text := [btick, btick, btick]

/-- A defused fence marker: `` ` `` `` ` `` U+200B `` ` `` — the string
`"``\u{200B}`"` that the sanitizer substitutes for a stray `"```"`. -/
def defusedRun : Text := [btick, btick, zwsp, btick]

/-- The characters Rust's sanitizer accepts in a fence language tag:
`c.is_alphanumeric() || matches!(c, '_' | '+' | '-' | '.' | '#')`. -/
def isLangChar (c : Char) : Bool :=
  rustIsAlphanumeric c || c = '_' || c = '+' || c = '-' || c = '.' || c = '#'

/-- Given `rest`, the characters after the leading ```` ``` ```` of a
trim-started line, decide whether the line is a legitimate fence opener:
`only_spaces_after || looks_like_lang` in `sanitize_chat_markdown`. -/
def openerTailOk (r : Text) : Bool :=
  r.all rustIsWhitespace ||
    (let after := trimEnd r
     let lang := rustTrim after
     !lang.isEmpty && lang.all isLangChar)

/-- Outside a fence: the line opens a fence (```` ``` ```` or
```` ```lang ````). -/
def isOpenLine (l : Text) : Bool :=
  fence.isPrefixOf (trimStart l) && openerTailOk ((trimStart l).drop 3)

/-- Outside a fence: the line starts with ```` ``` ```` but is narrative
text, so its leading marker is defused. -/
def isPseudoLine (l : Text) : Bool :=
  fence.isPrefixOf (trimStart l) && !openerTailOk ((trimStart l).drop 3)

/-- Outside a fence, for a line not starting with ```` ``` ````: the line
ends with three backticks (`line.ends_with("```")`). -/
def isTailBare (l : Text) : Bool := fence.isSuffixOf l

/-- Inside a fence: the line closes it (`trimmed_start.starts_with("```")
&& trimmed_start.trim() == "```"`). -/
def isCloseLine (l : Text) : Bool :=
  fence.isPrefixOf (trimStart l) && rustTrim (trimStart l) == fence

/-- Rust `line.replacen("```", "``\u{200B}`", 1)`: replace the first
occurrence of three backticks with the defused run. -/
def replaceFirstFence : Text → Text
  | [] => []
  | c :: rest =>
    if fence.isPrefixOf (c :: rest) then defusedRun ++ (c :: rest).drop 3
    else c :: replaceFirstFence rest

/-- Rust tail defusing: `s.split_off(s.len() - 3)` then append the defused
run (applied only when the line ends with three backticks). -/
def defuseTail (l : Text) : Text := l.take (l.length - 3) ++ defusedRun

/-- The line loop of `sanitize_chat_markdown`: the two-state machine over
the input lines, returning the processed lines and the final `in_fence`. -/
def processLines : Bool → List Text → List Text × Bool
  | inF, [] => ([], inF)
  | false, line :: rest =>
    if isOpenLine line then
      let p := processLines true rest
      (line :: p.1, p.2)
    else if isPseudoLine line then
      let p := processLines false rest
      (replaceFirstFence line :: p.1, p.2)
    else if isTailBare line then
      let p := processLines false rest
      (defuseTail line :: p.1, p.2)
    else
      let p := processLines false rest
      (line :: p.1, p.2)
  | true, line :: rest =>
    let p := processLines (if isCloseLine line then false else true) rest
    (line :: p.1, p.2)

/-- `sanitize_chat_markdown` from src/main.rs: process the lines, append a
synthetic closing fence if one was left open, and rejoin with `"\n"`. -/
def sanitize_chat_markdown (input : Text) : Text :=
  let p := processLines false (rustLines input)
  joinNl (if p.2 then p.1 ++ [fence] else p.1)

/-- The line list that `sanitize_chat_markdown` joins: the processed lines,
with the synthetic closing fence appended when a fence was left open. -/
def sanitizedLines (input : Text) : List Text :=
  if (processLines false (rustLines input)).2 then
    (processLines false (rustLines input)).1 ++ [fence]
  else (processLines false (rustLines input)).1

/-- Replay of the sanitizer's fence state machine over a list of lines,
counting the lines it recognizes as fence delimiters (an opener while
outside, a closer while inside) and returning the final state. -/
def fenceReplay : Bool → List Text → Nat × Bool
  | b, [] => (0, b)
  | false, l :: rest =>
    if isOpenLine l then
      let p := fenceReplay true rest
      (p.1 + 1, p.2)
    else fenceReplay false rest
  | true, l :: rest =>
    if isCloseLine l then
      let p := fenceReplay false rest
      (p.1 + 1, p.2)
    else fenceReplay true rest

/-- The normal form that splitting a rejoined line list produces: every
line terminated by `'\n'` (all but the last) loses one trailing `'\r'`,
and a final empty line disappears into the final line ending. -/
def rejoinNorm : List Text → List Text
  | [] => []
  | [l] => if l = [] then [] else [l]
  | l :: rest => dropFinalCr l :: rejoinNorm rest

/-- The count used by the fence-balance claim, following its words: the
number of output lines whose trimmed content is exactly three backticks
(defused markers contain U+200B and so never count). -/
def countBareFenceLines (s : Text) : Nat :=
  ((rustLines s).filter (fun l => rustTrim l == fence)).length

/-- `html_escape` from src/main.rs. -/
def html_escape (s : Text) : Text :=
  s.flatMap (fun c =>
    if c = '&' then "&amp;".toList
    else if c = '<' then "&lt;".toList
    else if c = '>' then "&gt;".toList
    else if c = '"' then "&quot;".toList
    else if c = '\\' then "&#92;".toList
    else [c])

/-- The line loop of `text_to_html_with_fences` (the `fence_lang` variable
is only read at the opening line, so the state is just `in_fence`). -/
def t2hGo : Bool → List Text → Text
  | inF, [] => if inF then "</code></pre>\n".toList else []
  | false, line :: rest =>
    let trimmed := trimStart line
    if fence.isPrefixOf trimmed then
      let lang := rustTrim (trimmed.drop 3)
      (if lang.isEmpty then "<pre><code>".toList
       else "<pre><code class=\"language-".toList ++ html_escape lang ++ "\">".toList)
        ++ t2hGo true rest
    else html_escape line ++ '\n' :: t2hGo false rest
  | true, line :: rest =>
    let trimmed := trimStart line
    if fence.isPrefixOf trimmed && rustTrim trimmed == fence then
      "</code></pre>\n".toList ++ t2hGo false rest
    else html_escape line ++ '\n' :: t2hGo true rest

/-- `text_to_html_with_fences` from src/main.rs. -/
def text_to_html_with_fences (s : Text) : Text :=
  t2hGo false (rustLines s)

/-- `RawMsg` from src/main.rs: one decoded JSON record. -/
structure RawMsg where
  role : Text
  content : Text
deriving DecidableEq

/-- `Role` from src/main.rs. -/
inductive Role where
  | System
  | User
  | Assistant
  | Other (label : Text)
deriving DecidableEq

/-- `Msg` from src/main.rs: one normalized turn. -/
structure Msg where
  role : Role
  content : Text
deriving DecidableEq

/-- `Loaded` from src/main.rs: the conversation model a load produces. -/
structure Loaded where
  file_name : Option Text
  system : Option Text
  messages : List Msg
  errors : List Text
deriving DecidableEq

/-- `trim_chat_whitespace` from src/main.rs: pop trailing space, tab,
newline and carriage return, then remove leading newlines and carriage
returns only. -/
def trim_chat_whitespace (input : Text) : Text :=
  ((input.reverse.dropWhile
      (fun c => c = ' ' || c = '\t' || c = '\n' || c = '\r')).reverse).dropWhile
    (fun c => c = '\n' || c = '\r')

/-- The content normalization in `normalize`: trim chat whitespace, then
replace (Unicode-)whitespace-only content with the `"(empty)"` placeholder. -/
def normContent (c : Text) : Text :=
  let cleaned := trim_chat_whitespace c
  if (rustTrim cleaned).isEmpty then "(empty)".toList else cleaned

/-- Whether a raw record's lower-cased role is `"system"`. -/
def isSystemRec (r : RawMsg) : Bool :=
  rustToLowercase r.role == "system".toList

/-- The per-record mapping of `normalize` once the system slot is taken
(also correct for non-system records before that): `"system"` is demoted to
`Other("System (extra)")`, `"user"`/`"assistant"` map to their variants and
anything else to `Other` of the lower-cased role. -/
def demote (r : RawMsg) : Msg :=
  if isSystemRec r then ⟨.Other ("System (extra)".toList), normContent r.content⟩
  else if rustToLowercase r.role == "user".toList then ⟨.User, normContent r.content⟩
  else if rustToLowercase r.role == "assistant".toList then ⟨.Assistant, normContent r.content⟩
  else ⟨.Other (rustToLowercase r.role), normContent r.content⟩

/-- The record loop of `normalize`, carrying the system slot. -/
def normalizeGo : Option Text → List RawMsg → Option Text × List Msg
  | sys, [] => (sys, [])
  | sys, rm :: rest =>
    if isSystemRec rm then
      match sys with
      | none => normalizeGo (some (normContent rm.content)) rest
      | some s =>
        let p := normalizeGo (some s) rest
        (p.1, ⟨.Other ("System (extra)".toList), normContent rm.content⟩ :: p.2)
    else if rustToLowercase rm.role == "user".toList then
      let p := normalizeGo sys rest
      (p.1, ⟨.User, normContent rm.content⟩ :: p.2)
    else if rustToLowercase rm.role == "assistant".toList then
      let p := normalizeGo sys rest
      (p.1, ⟨.Assistant, normContent rm.content⟩ :: p.2)
    else
      let p := normalizeGo sys rest
      (p.1, ⟨.Other (rustToLowercase rm.role), normContent rm.content⟩ :: p.2)

/-- `normalize` from src/main.rs. -/
def normalize (raw : List RawMsg) : Loaded :=
  let p := normalizeGo none raw
  ⟨none, p.1, p.2, []⟩

/-- The line loop of `parse_jsonl_with_errors`, over an abstract per-line
decoder (serde_json): blank lines are skipped, failures are counted. -/
def pjweGo (dec : Text → Option RawMsg) : List Text → List RawMsg × Nat
  | [] => ([], 0)
  | l :: rest =>
    let t := rustTrim l
    let p := pjweGo dec rest
    if t.isEmpty then p
    else
      match dec t with
      | some m => (m :: p.1, p.2)
      | none => (p.1, p.2 + 1)

/-- `parse_jsonl_with_errors` from src/main.rs (its `from_utf8` round trip
on `text.as_bytes()` is the identity on valid text, so the embedding works
on the text directly). -/
def parse_jsonl_with_errors (dec : Text → Option RawMsg) (text : Text) :
    List RawMsg × Nat :=
  pjweGo dec (rustLines text)

/-- The first non-whitespace character of the input
(`text.chars().find(|c| !c.is_whitespace())`). -/
def firstNonWs (text : Text) : Option Char :=
  text.find? (fun c => !rustIsWhitespace c)

/-- The aggregated warning `format!("{} JSONL line(s) failed to parse", n)`. -/
def jsonlWarning (n : Nat) : Text :=
  Nat.toDigits 10 n ++ " JSONL line(s) failed to parse".toList

/-- `parse_json` from src/main.rs, over the abstract whole-buffer array
decoder: a decode failure is surfaced as the `JSON array parse error`
context. -/
def parse_json (arrDec : Text → Option (List RawMsg)) (text : Text) :
    Except Text (List RawMsg) :=
  match arrDec text with
  | none => .error ("JSON array parse error".toList)
  | some v => .ok v

/-- `detect_and_parse` from src/main.rs (the `match` on the first
non-whitespace character discriminates only on whether it is `'['`). -/
def detect_and_parse (dec : Text → Option RawMsg)
    (arrDec : Text → Option (List RawMsg)) (text : Text) :
    Except Text (List RawMsg × List Text) :=
  if firstNonWs text = some '[' then
    match parse_json arrDec text with
    | .error e => .error e
    | .ok v => .ok (v, [])
  else
    let p := parse_jsonl_with_errors dec text
    .ok (p.1, if p.2 > 0 then [jsonlWarning p.2] else [])

/-- `load_from_bytes` from src/main.rs, over an abstract UTF-8 decoder for
the byte buffer (`std::str::from_utf8`).  Both size branches check UTF-8
first; the large branch appends the size warning after the parse warnings. -/
def load_from_bytes (utf8 : List Nat → Option Text)
    (dec : Text → Option RawMsg) (arrDec : Text → Option (List RawMsg))
    (bytes : List Nat) : Except Text Loaded :=
  if bytes.length > 20 * 1024 * 1024 then
    match utf8 bytes with
    | none => .error ("Non-UTF8 file".toList)
    | some text =>
      match detect_and_parse dec arrDec text with
      | .error e => .error e
      | .ok p =>
        let l := normalize p.1
        .ok { l with errors := l.errors ++ p.2 ++ ["File larger than ~20MB".toList] }
  else
    match utf8 bytes with
    | none => .error ("Non-UTF8 file".toList)
    | some text =>
      match detect_and_parse dec arrDec text with
      | .error e => .error e
      | .ok p =>
        let l := normalize p.1
        .ok { l with errors := l.errors ++ p.2 }

/-- The fatal error of a load result, if any. -/
def exceptError : Except Text Loaded → Option Text
  | .error e => some e
  | .ok _ => none

/-- Modelled from the claim's words (for refinement): `load_from_bytes` is
fatal exactly when the bytes are not valid UTF-8 (`Non-UTF8 file`) or the
first non-whitespace character is `'['` and the array decode fails
(`JSON array parse error`); otherwise it succeeds. -/
def loadFatalSpec (utf8 : List Nat → Option Text)
    (arrDec : Text → Option (List RawMsg)) (bytes : List Nat) : Option Text :=
  match utf8 bytes with
  | none => some ("Non-UTF8 file".toList)
  | some text =>
    if firstNonWs text = some '[' then
      match arrDec text with
      | none => some ("JSON array parse error".toList)
      | some _ => none
    else none

/-- `title_case` from src/main.rs: upper-case the first character
(`char::to_uppercase`, ASCII range), lower-case the rest. -/
def title_case (s : Text) : Text :=
  match s with
  | [] => []
  | c :: rest => c.toUpper :: rustToLowercase rest

/-- The role label used by `to_markdown` (and the copy actions). -/
def roleLabel : Role → Text
  | .User => "User".toList
  | .Assistant => "Assistant".toList
  | .System => "System".toList
  | .Other r => title_case r

/-- `to_markdown` from src/main.rs, over the fields of the application
state it reads (the optional system preamble and the messages): a string
builder fold pushing the system section and then each turn. -/
def to_markdown (system : Option Text) (messages : List Msg) : Text :=
  messages.foldl
    (fun out m =>
      out ++ ("**".toList ++ roleLabel m.role ++ "**  \n".toList ++ m.content ++ "\n\n".toList))
    (match system with
     | some sys => "# System\n".toList ++ sys ++ "\n\n---\n\n".toList
     | none => [])

/-- Modelled from the claim's words (for refinement): the Markdown export
as a flat concatenation — optional `# System` section, then each turn via
the exact template, the content raw. -/
def mdTurnTemplate (m : Msg) : Text :=
  "**".toList ++ roleLabel m.role ++ "**  \n".toList ++ m.content ++ "\n\n".toList

/-- Modelled from the claim's words (for refinement): the optional system
section of the Markdown export. -/
def mdSystemSection : Option Text → Text
  | some sys => "# System\n".toList ++ sys ++ "\n\n---\n\n".toList
  | none => []

/-- Modelled from the claim's words (for refinement): the whole Markdown
document. -/
def to_markdown_spec (system : Option Text) (messages : List Msg) : Text :=
  mdSystemSection system ++ (messages.map mdTurnTemplate).flatten

/-- A concrete JSONL line decoder used to exercise the parser: it accepts
exactly the line `v`. -/
def c3Dec : Text → Option RawMsg :=
  fun t => if t = ['v'] then some ⟨"user".toList, "hi".toList⟩ else none

/-- A concrete whole-buffer array decoder that always fails. -/
def c3Arr : Text → Option (List RawMsg) := fun _ => none

/-- A concrete JSONL input: two decodable lines, one blank line and one
undecodable line. -/
def c3Input : Text := "v\n\nbad\nv".toList

/-! ### Character facts -/

lemma rustIsWhitespace_btick : rustIsWhitespace btick = false := by decide

lemma rustIsWhitespace_cr : rustIsWhitespace '\r' = true := by decide

lemma ne_btick_of_ws {c : Char} (h : rustIsWhitespace c = true) : c ≠ btick := by
  intro hc
  rw [hc, rustIsWhitespace_btick] at h
  cases h

/-! ### Trimming lemmas -/

lemma trimStart_cons_ws {c : Char} (h : rustIsWhitespace c = true) (s : Text) :
    trimStart (c :: s) = trimStart s := by
  simp [trimStart, List.dropWhile_cons, h]

lemma trimStart_cons_nws {c : Char} (h : rustIsWhitespace c = false) (s : Text) :
    trimStart (c :: s) = c :: s := by
  simp [trimStart, List.dropWhile_cons, h]

lemma trimStart_append_ws {p : Text} (h : ∀ c ∈ p, rustIsWhitespace c = true) (s : Text) :
    trimStart (p ++ s) = trimStart s := by
  induction p with
  | nil => rfl
  | cons c p ih =>
    rw [List.cons_append, trimStart_cons_ws (h c (by simp))]
    exact ih (fun c hc => h c (by simp [hc]))

lemma trimStart_decomp (l : Text) :
    ∃ p, l = p ++ trimStart l ∧ ∀ c ∈ p, rustIsWhitespace c = true :=
  ⟨l.takeWhile rustIsWhitespace, (List.takeWhile_append_dropWhile rustIsWhitespace l).symm,
    fun _ hc => List.mem_takeWhile_imp hc⟩

lemma trimStart_head_nws : ∀ {l c t}, trimStart l = c :: t → rustIsWhitespace c = false := by
  intro l
  induction l with
  | nil => intro c t h; cases h
  | cons a l ih =>
    intro c t h
    by_cases ha : rustIsWhitespace a = true
    · rw [trimStart_cons_ws ha] at h
      exact ih h
    · rw [trimStart_cons_nws (by simpa using ha)] at h
      cases h
      simpa using ha

lemma trimStart_append_right {l : Text} (h : trimStart l ≠ []) (s : Text) :
    trimStart (l ++ s) = trimStart l ++ s := by
  obtain ⟨p, hp, hw⟩ := trimStart_decomp l
  cases hts : trimStart l with
  | nil => exact absurd hts h
  | cons c t =>
    have h1 : l ++ s = p ++ ((c :: t) ++ s) := by rw [hp, hts, List.append_assoc]
    rw [h1, trimStart_append_ws hw, List.cons_append,
      trimStart_cons_nws (trimStart_head_nws hts)]

lemma trimStart_idem (l : Text) : trimStart (trimStart l) = trimStart l := by
  cases hts : trimStart l with
  | nil => rfl
  | cons c t => exact trimStart_cons_nws (trimStart_head_nws hts) t

lemma trimEnd_snoc_ws {c : Char} (h : rustIsWhitespace c = true) (l : Text) :
    trimEnd (l ++ [c]) = trimEnd l := by
  simp [trimEnd, List.dropWhile_cons, h]

/-! ### Fence prefix and suffix characterizations -/

lemma isPrefixOf_fence_iff (s : Text) : fence.isPrefixOf s = true ↔ fence = s.take 3 := by
  rw [List.isPrefixOf_iff_prefix]
  exact List.prefix_iff_eq_take

lemma isSuffixOf_fence_iff (s : Text) : fence.isSuffixOf s = true ↔ fence = s.reverse.take 3 := by
  rw [List.isSuffixOf_iff_suffix, ← List.reverse_prefix, List.prefix_iff_eq_take]
  exact Iff.rfl

lemma fence_isPrefixOf_fence_append (t : Text) : fence.isPrefixOf (fence ++ t) = true := by
  rw [isPrefixOf_fence_iff]
  rfl

lemma not_isPrefixOf_fence_of_head_ne {c : Char} (h : c ≠ btick) (s : Text) :
    fence.isPrefixOf (c :: s) = false := by
  rw [← Bool.not_eq_true, isPrefixOf_fence_iff]
  intro hf
  simp only [fence, List.take_succ_cons, List.cons.injEq] at hf
  exact h hf.1.symm

lemma prefix_of_trimStart_decomp {l : Text} (h : fence.isPrefixOf (trimStart l) = true) :
    ∃ p t, (∀ c ∈ p, rustIsWhitespace c = true) ∧ l = p ++ (fence ++ t) ∧
      trimStart l = fence ++ t := by
  obtain ⟨p, hp, hw⟩ := trimStart_decomp l
  rw [List.isPrefixOf_iff_prefix] at h
  obtain ⟨t, ht⟩ := h
  exact ⟨p, t, hw, by rw [← ht] at hp; exact hp, ht.symm⟩

/-! ### Defusing lemmas -/

lemma replaceFirstFence_append_no_btick {p : Text} (h : ∀ c ∈ p, c ≠ btick) (s : Text) :
    replaceFirstFence (p ++ s) = p ++ replaceFirstFence s := by
  induction p with
  | nil => rfl
  | cons c p ih =>
    rw [List.cons_append, replaceFirstFence,
      not_isPrefixOf_fence_of_head_ne (h c (by simp)) (p ++ s)]
    simp only [Bool.false_eq_true, if_false, List.cons_append, List.cons.injEq, true_and]
    exact ih (fun c hc => h c (by simp [hc]))

lemma replaceFirstFence_fence_append (t : Text) :
    replaceFirstFence (fence ++ t) = defusedRun ++ t := by
  show replaceFirstFence (btick :: btick :: btick :: t) = defusedRun ++ t
  rw [replaceFirstFence, show (btick :: btick :: btick :: t) = fence ++ t from rfl,
    fence_isPrefixOf_fence_append t]
  simp [fence]

lemma replaceFirstFence_repr {l : Text} (h : fence.isPrefixOf (trimStart l) = true) :
    ∃ p t, (∀ c ∈ p, rustIsWhitespace c = true) ∧ l = p ++ (fence ++ t) ∧
      trimStart l = fence ++ t ∧ replaceFirstFence l = p ++ (defusedRun ++ t) := by
  obtain ⟨p, t, hw, hl, hts⟩ := prefix_of_trimStart_decomp h
  refine ⟨p, t, hw, hl, hts, ?_⟩
  rw [hl, replaceFirstFence_append_no_btick (fun c hc => ne_btick_of_ws (hw c hc)),
    replaceFirstFence_fence_append]

lemma trimStart_ws_append_defused (p t : Text) (hw : ∀ c ∈ p, rustIsWhitespace c = true) :
    trimStart (p ++ (defusedRun ++ t)) = defusedRun ++ t := by
  rw [trimStart_append_ws hw]
  exact trimStart_cons_nws rustIsWhitespace_btick _

lemma not_isPrefixOf_fence_defused (t : Text) :
    fence.isPrefixOf (defusedRun ++ t) = false := by
  rw [← Bool.not_eq_true, isPrefixOf_fence_iff]
  intro hf
  simp only [defusedRun, fence, List.cons_append, List.take_succ_cons, List.cons.injEq] at hf
  have : btick = zwsp := hf.2.2.1
  exact absurd this (by decide)

/-- If three backticks prefix `x ++ defusedRun`, they already prefix
`x ++ fence` (the defused run only agrees with a fence on its first two
characters, so the prefix must come from `x`, or `x` is shorter than two
characters and made of backticks). -/
lemma prefix_defused_imp (x : Text) (h : fence.isPrefixOf (x ++ defusedRun) = true) :
    fence.isPrefixOf (x ++ fence) = true := by
  rw [isPrefixOf_fence_iff] at h ⊢
  match x with
  | [] => exact absurd h (by decide)
  | [a] =>
    have ha : btick = a := by
      simpa [fence, defusedRun] using congrArg (fun l => l.head?) h
    rw [← ha] at h ⊢
    decide
  | [a, b] =>
    have hab : btick = a ∧ btick = b := by
      have h1 := congrArg (fun l => l.head?) h
      have h2 := congrArg (fun l => l.tail.head?) h
      simp [fence, defusedRun] at h1 h2
      exact ⟨h1, h2⟩
    rw [← hab.1, ← hab.2] at h ⊢
    decide
  | a :: b :: c :: x' =>
    have e1 : List.take 3 ((a :: b :: c :: x') ++ defusedRun) = [a, b, c] := by simp
    have e2 : List.take 3 ((a :: b :: c :: x') ++ fence) = [a, b, c] := by simp
    rw [e2, ← e1]
    exact h

/-- The reversed form of the middle-defusing argument: if three backticks
suffix `y ++ ([btick, zwsp, btick, btick] ++ w)` read in reverse, they
already suffix the fence variant. -/
lemma take_three_defusedRev_imp (y w : Text)
    (h : fence = List.take 3 (y ++ ([btick, zwsp, btick, btick] ++ w))) :
    fence = List.take 3 (y ++ (fence ++ w)) := by
  match y with
  | [] =>
    exfalso
    have he : List.take 3 (([] : Text) ++ ([btick, zwsp, btick, btick] ++ w))
        = [btick, zwsp, btick] := by simp
    rw [he] at h
    exact absurd h (by decide)
  | [a] =>
    exfalso
    have h2 := congrArg (fun l => l.tail.tail.head?) h
    simp [fence] at h2
    exact absurd h2 (by decide)
  | [a, b] =>
    have hab : btick = a ∧ btick = b := by
      have h1 := congrArg (fun l => l.head?) h
      have h2 := congrArg (fun l => l.tail.head?) h
      simp [fence] at h1 h2
      exact ⟨h1, h2⟩
    rw [← hab.1, ← hab.2]
    simp [fence]
  | a :: b :: c :: y' =>
    have e1 : List.take 3 ((a :: b :: c :: y') ++ ([btick, zwsp, btick, btick] ++ w))
        = [a, b, c] := by simp
    have e2 : List.take 3 ((a :: b :: c :: y') ++ (fence ++ w)) = [a, b, c] := by simp
    rw [e2, ← e1]
    exact h

/-- If three backticks suffix `p ++ (defusedRun ++ t)`, they already
suffix `p ++ (fence ++ t)`. -/
lemma suffix_defused_mid_imp (p t : Text)
    (h : fence.isSuffixOf (p ++ (defusedRun ++ t)) = true) :
    fence.isSuffixOf (p ++ (fence ++ t)) = true := by
  rw [isSuffixOf_fence_iff] at h ⊢
  rw [List.reverse_append, List.reverse_append, List.append_assoc] at h ⊢
  rw [show defusedRun.reverse = [btick, zwsp, btick, btick] from rfl] at h
  rw [show fence.reverse = fence from rfl]
  exact take_three_defusedRev_imp t.reverse p.reverse h

lemma not_isSuffixOf_append_defused (q : Text) :
    fence.isSuffixOf (q ++ defusedRun) = false := by
  rw [← Bool.not_eq_true, isSuffixOf_fence_iff]
  intro hf
  rw [List.reverse_append,
    show defusedRun.reverse = btick :: zwsp :: btick :: [btick] from rfl] at hf
  have := congrArg (fun l => l.tail.head?) hf
  simp [fence] at this
  exact absurd this (by decide)

lemma defuseTail_repr {l : Text} (h : fence.isSuffixOf l = true) :
    ∃ q, l = q ++ fence ∧ defuseTail l = q ++ defusedRun := by
  rw [List.isSuffixOf_iff_suffix] at h
  obtain ⟨q, hq⟩ := h
  refine ⟨q, hq.symm, ?_⟩
  rw [defuseTail, ← hq]
  have hlen : (q ++ fence).length - 3 = q.length := by simp [fence]
  rw [hlen, List.take_left]

lemma defuseTail_not_suffix {l : Text} (h : fence.isSuffixOf l = true) :
    fence.isSuffixOf (defuseTail l) = false := by
  obtain ⟨q, _, hdt⟩ := defuseTail_repr h
  rw [hdt]
  exact not_isSuffixOf_append_defused q

lemma defuseTail_no_open_marker {l : Text} (hs : fence.isSuffixOf l = true)
    (hp : fence.isPrefixOf (trimStart l) = false) :
    fence.isPrefixOf (trimStart (defuseTail l)) = false := by
  obtain ⟨q, hq, hdt⟩ := defuseTail_repr hs
  rw [hdt]
  rw [hq] at hp
  cases htq : trimStart q with
  | nil =>
    exfalso
    obtain ⟨p, hpq, hw⟩ := trimStart_decomp q
    rw [htq, List.append_nil] at hpq
    rw [hpq, trimStart_append_ws hw] at hp
    have hf : trimStart fence = fence := by decide
    rw [hf] at hp
    have ht : fence.isPrefixOf fence = true := by decide
    rw [ht] at hp
    cases hp
  | cons a r =>
    have hne : trimStart q ≠ [] := by rw [htq]; simp
    rw [trimStart_append_right hne] at hp
    rw [trimStart_append_right hne]
    rw [← Bool.not_eq_true]
    intro hcontra
    have := prefix_defused_imp (trimStart q) hcontra
    rw [this] at hp
    cases hp

lemma replaceFirstFence_not_suffix {l : Text}
    (hpre : fence.isPrefixOf (trimStart l) = true)
    (hs : fence.isSuffixOf l = false) :
    fence.isSuffixOf (replaceFirstFence l) = false := by
  obtain ⟨p, t, _, hl, _, hrf⟩ := replaceFirstFence_repr hpre
  rw [hrf, ← Bool.not_eq_true]
  intro hcontra
  have := suffix_defused_mid_imp p t hcontra
  rw [← hl, hs] at this
  cases this

/-! ### Classification of emitted lines -/

lemma isOpenLine_eq_false_of_no_marker {l : Text}
    (h : fence.isPrefixOf (trimStart l) = false) : isOpenLine l = false := by
  simp [isOpenLine, h]

lemma isPseudoLine_eq_false_of_no_prefix {l : Text}
    (h : fence.isPrefixOf (trimStart l) = false) : isPseudoLine l = false := by
  simp [isPseudoLine, h]

lemma isCloseLine_eq_false_of_no_prefix {l : Text}
    (h : fence.isPrefixOf (trimStart l) = false) : isCloseLine l = false := by
  simp [isCloseLine, h]

lemma no_prefix_of_not_open_pseudo {l : Text} (h1 : isOpenLine l = false)
    (h2 : isPseudoLine l = false) : fence.isPrefixOf (trimStart l) = false := by
  rw [isOpenLine] at h1
  rw [isPseudoLine] at h2
  cases hp : fence.isPrefixOf (trimStart l) with
  | false => rfl
  | true =>
    rw [hp, Bool.true_and] at h1 h2
    rw [h1] at h2
    simp at h2

lemma replaceFirstFence_no_prefix_classes {l : Text}
    (hpre : fence.isPrefixOf (trimStart l) = true) :
    fence.isPrefixOf (trimStart (replaceFirstFence l)) = false := by
  obtain ⟨p, t, hw, _, _, hrf⟩ := replaceFirstFence_repr hpre
  rw [hrf, trimStart_ws_append_defused p t hw]
  exact not_isPrefixOf_fence_defused t

/-! ### Line splitting and rejoining -/

lemma nl_not_mem_dropFinalCr {l : Text} (h : '\n' ∉ l) : '\n' ∉ dropFinalCr l := by
  rw [dropFinalCr]
  split
  · intro hm
    exact h (List.dropLast_sublist l |>.mem hm)
  · exact h

lemma rustLinesGo_no_nl : ∀ (s acc : Text), '\n' ∉ acc →
    ∀ l ∈ rustLinesGo acc s, '\n' ∉ l := by
  intro s
  induction s with
  | nil =>
    intro acc hacc l hl
    simp only [rustLinesGo, List.mem_singleton] at hl
    subst hl
    simpa using hacc
  | cons c rest ih =>
    intro acc hacc l hl
    rw [rustLinesGo] at hl
    by_cases hc : c = '\n'
    · rw [if_pos hc] at hl
      rcases List.mem_cons.mp hl with h1 | h1
      · subst h1
        exact nl_not_mem_dropFinalCr (by simpa using hacc)
      · rcases em (rest = []) with hr | hr
        · rw [if_pos hr] at h1
          cases h1
        · rw [if_neg hr] at h1
          exact ih [] (by simp) l h1
    · rw [if_neg hc] at hl
      refine ih (c :: acc) ?_ l hl
      intro hm
      rcases List.mem_cons.mp hm with h1 | h1
      · exact hc h1.symm
      · exact hacc h1

lemma rustLines_eq_go {s : Text} (h : s ≠ []) : rustLines s = rustLinesGo [] s := by
  cases s with
  | nil => exact absurd rfl h
  | cons c rest => rfl

lemma rustLines_no_nl (s : Text) : ∀ l ∈ rustLines s, '\n' ∉ l := by
  cases s with
  | nil => simp [rustLines]
  | cons c rest => exact rustLinesGo_no_nl (c :: rest) [] (by simp)

lemma rustLinesGo_no_nl_eq {l : Text} (hn : '\n' ∉ l) :
    ∀ acc, rustLinesGo acc l = [acc.reverse ++ l] := by
  induction l with
  | nil => intro acc; simp [rustLinesGo]
  | cons c l ih =>
    intro acc
    have hc : c ≠ '\n' := fun h => hn (by simp [h])
    rw [rustLinesGo, if_neg hc, ih (fun h => hn (by simp [h]))]
    simp

lemma rustLinesGo_split {l : Text} (hn : '\n' ∉ l) (acc s : Text) :
    rustLinesGo acc (l ++ '\n' :: s) =
      dropFinalCr (acc.reverse ++ l) :: (if s = [] then [] else rustLinesGo [] s) := by
  induction l generalizing acc with
  | nil =>
    rw [List.nil_append, rustLinesGo, if_pos rfl]
    simp
  | cons c l ih =>
    have hc : c ≠ '\n' := fun h => hn (by simp [h])
    rw [List.cons_append, rustLinesGo, if_neg hc, ih (fun h => hn (by simp [h]))]
    simp

lemma rustLines_join_cons {l : Text} (hn : '\n' ∉ l) (s : Text) :
    rustLines (l ++ '\n' :: s) = dropFinalCr l :: rustLines s := by
  have hne : l ++ '\n' :: s ≠ [] := by
    cases l <;> simp
  rw [rustLines_eq_go hne, rustLinesGo_split hn]
  simp only [List.reverse_nil, List.nil_append]
  cases s with
  | nil => rfl
  | cons a s' => rw [if_neg (by simp), ← rustLines_eq_go (by simp)]

lemma rustLines_joinNl {ls : List Text} (hn : ∀ l ∈ ls, '\n' ∉ l) :
    rustLines (joinNl ls) = rejoinNorm ls := by
  induction ls with
  | nil => rfl
  | cons l rest ih =>
    cases rest with
    | nil =>
      show rustLines l = rejoinNorm [l]
      rcases em (l = []) with hl | hl
      · subst hl; rfl
      · rw [rustLines_eq_go hl, rustLinesGo_no_nl_eq (hn l (by simp))]
        simp [rejoinNorm, hl]
    | cons l2 rest' =>
      show rustLines (l ++ '\n' :: joinNl (l2 :: rest')) = rejoinNorm (l :: l2 :: rest')
      rw [rustLines_join_cons (hn l (by simp)),
        ih (fun x hx => hn x (List.mem_cons_of_mem l hx))]
      rfl

lemma rejoinNorm_id {ls : List Text} (hcr : ∀ l ∈ ls, l.getLast? ≠ some '\r')
    (hlast : ls.getLast? ≠ some []) : rejoinNorm ls = ls := by
  induction ls with
  | nil => rfl
  | cons l rest ih =>
    cases rest with
    | nil =>
      have hl : l ≠ [] := by
        intro h
        subst h
        exact hlast (by simp)
      simp [rejoinNorm, hl]
    | cons l2 rest' =>
      show dropFinalCr l :: rejoinNorm (l2 :: rest') = l :: l2 :: rest'
      rw [dropFinalCr, if_neg (hcr l (by simp)),
        ih (fun x hx => hcr x (List.mem_cons_of_mem l hx))
          (by rwa [List.getLast?_cons_cons] at hlast)]

/-! ### Classification is invariant under stripping one trailing CR -/

lemma prefix_short_false {x : Text} (hx : x.length < 3) : fence.isPrefixOf x = false := by
  rw [← Bool.not_eq_true, isPrefixOf_fence_iff]
  intro hf
  have hlen := congrArg List.length hf
  rw [List.length_take] at hlen
  simp only [fence, List.length_cons, List.length_nil] at hlen
  omega

lemma prefix_take3_indep {x : Text} (hx : 3 ≤ x.length) (y : Text) :
    fence.isPrefixOf (x ++ y) = fence.isPrefixOf x := by
  have htake : List.take 3 (x ++ y) = List.take 3 x := List.take_append_of_le_length hx
  cases h1 : fence.isPrefixOf x with
  | true =>
    rw [isPrefixOf_fence_iff] at h1
    rw [isPrefixOf_fence_iff, htake]
    exact h1
  | false =>
    rw [← Bool.not_eq_true, isPrefixOf_fence_iff, htake]
    intro hf
    rw [← isPrefixOf_fence_iff, h1] at hf
    cases hf

lemma openerTailOk_snoc_ws {c : Char} (h : rustIsWhitespace c = true) (r : Text) :
    openerTailOk (r ++ [c]) = openerTailOk r := by
  rw [openerTailOk, openerTailOk, List.all_append, trimEnd_snoc_ws h]
  simp [h]

lemma isOpen_isClose_snoc_cr (m : Text) :
    isOpenLine (m ++ ['\r']) = isOpenLine m ∧
      isCloseLine (m ++ ['\r']) = isCloseLine m := by
  cases htm : trimStart m with
  | nil =>
    obtain ⟨p, hp, hw⟩ := trimStart_decomp m
    rw [htm, List.append_nil] at hp
    have h1 : trimStart (m ++ ['\r']) = [] := by
      rw [hp, trimStart_append_ws hw, trimStart_cons_ws rustIsWhitespace_cr]
      rfl
    have h2 : fence.isPrefixOf ([] : Text) = false := by decide
    constructor
    · rw [isOpenLine, isOpenLine, h1, htm, h2]
    · rw [isCloseLine, isCloseLine, h1, htm, h2]
  | cons a r =>
    have hne : trimStart m ≠ [] := by rw [htm]; simp
    have hts : trimStart (m ++ ['\r']) = (a :: r) ++ ['\r'] := by
      rw [trimStart_append_right hne, htm]
    have hanws : rustIsWhitespace a = false := trimStart_head_nws htm
    have htr : rustTrim ((a :: r) ++ ['\r']) = rustTrim (a :: r) := by
      rw [rustTrim, rustTrim, List.cons_append, trimStart_cons_nws hanws,
        trimStart_cons_nws hanws,
        show (a :: (r ++ ['\r']) : Text) = (a :: r) ++ ['\r'] by simp,
        trimEnd_snoc_ws rustIsWhitespace_cr]
    rcases r with _ | ⟨b, _ | ⟨c, r'⟩⟩
    · have e1 : fence.isPrefixOf ([a] ++ ['\r']) = false := prefix_short_false (by simp)
      have e2 : fence.isPrefixOf ([a] : Text) = false := prefix_short_false (by simp)
      constructor
      · rw [isOpenLine, isOpenLine, hts, htm, e1, e2]
        simp
      · rw [isCloseLine, isCloseLine, hts, htm, e1, e2]
        simp
    · have e1 : fence.isPrefixOf ([a, b] ++ ['\r']) = false := by
        rw [← Bool.not_eq_true, isPrefixOf_fence_iff]
        intro hf
        have h3 := congrArg (fun l => l.tail.tail.head?) hf
        simp [fence] at h3
        exact absurd h3 (by decide)
      have e2 : fence.isPrefixOf ([a, b] : Text) = false := prefix_short_false (by simp)
      constructor
      · rw [isOpenLine, isOpenLine, hts, htm, e1, e2]
        simp
      · rw [isCloseLine, isCloseLine, hts, htm, e1, e2]
        simp
    · have hpfx := prefix_take3_indep (x := a :: b :: c :: r') (by simp) ['\r']
      constructor
      · rw [isOpenLine, isOpenLine, hts, htm, hpfx]
        cases hpf : fence.isPrefixOf (a :: b :: c :: r' : Text) with
        | false => rfl
        | true =>
          have e2 : List.drop 3 ((a :: b :: c :: r') ++ ['\r']) = r' ++ ['\r'] := by simp
          have e3 : List.drop 3 (a :: b :: c :: r' : Text) = r' := by simp
          rw [e2, e3, openerTailOk_snoc_ws rustIsWhitespace_cr]
      · rw [isCloseLine, isCloseLine, hts, htm, hpfx, htr]

lemma dropFinalCr_classes (l : Text) :
    isOpenLine (dropFinalCr l) = isOpenLine l ∧
      isCloseLine (dropFinalCr l) = isCloseLine l := by
  rcases em (l.getLast? = some '\r') with hcr | hcr
  · have hlne : l ≠ [] := by
      intro h
      subst h
      simp at hcr
    have hlast : l.getLast hlne = '\r' := by
      have := List.getLast?_eq_getLast l hlne
      rw [hcr] at this
      exact (Option.some.injEq _ _ ▸ this.symm :)
    have hrepr : l = l.dropLast ++ ['\r'] := by
      conv_lhs => rw [← List.dropLast_concat_getLast hlne, hlast]
    rw [dropFinalCr, if_pos hcr]
    constructor
    · conv_rhs => rw [hrepr]
      exact ((isOpen_isClose_snoc_cr l.dropLast).1).symm
    · conv_rhs => rw [hrepr]
      exact ((isOpen_isClose_snoc_cr l.dropLast).2).symm
  · rw [dropFinalCr, if_neg hcr]
    exact ⟨rfl, rfl⟩

lemma fenceReplay_rejoinNorm : ∀ (ls : List Text) (b : Bool),
    fenceReplay b (rejoinNorm ls) = fenceReplay b ls := by
  intro ls
  induction ls with
  | nil => intro b; rfl
  | cons l rest ih =>
    intro b
    cases rest with
    | nil =>
      rcases em (l = []) with hl | hl
      · subst hl
        cases b <;>
          simp [rejoinNorm, fenceReplay, (by decide : isOpenLine [] = false),
            (by decide : isCloseLine [] = false)]
      · simp [rejoinNorm, hl]
    | cons l2 rest' =>
      show fenceReplay b (dropFinalCr l :: rejoinNorm (l2 :: rest')) =
        fenceReplay b (l :: l2 :: rest')
      have hopen := (dropFinalCr_classes l).1
      have hclose := (dropFinalCr_classes l).2
      cases b with
      | false => cases h : isOpenLine l <;> simp [fenceReplay, hopen, h, ih]
      | true => cases h : isCloseLine l <;> simp [fenceReplay, hclose, h, ih]

/-! ### Branch equations for the sanitizer loop and the replay -/

lemma processLines_cons_open {l : Text} (h : isOpenLine l = true) (rest : List Text) :
    processLines false (l :: rest) =
      (l :: (processLines true rest).1, (processLines true rest).2) := by
  simp [processLines, h]

lemma processLines_cons_pseudo {l : Text} (h1 : isOpenLine l = false)
    (h2 : isPseudoLine l = true) (rest : List Text) :
    processLines false (l :: rest) =
      (replaceFirstFence l :: (processLines false rest).1, (processLines false rest).2) := by
  simp [processLines, h1, h2]

lemma processLines_cons_tail {l : Text} (h1 : isOpenLine l = false)
    (h2 : isPseudoLine l = false) (h3 : isTailBare l = true) (rest : List Text) :
    processLines false (l :: rest) =
      (defuseTail l :: (processLines false rest).1, (processLines false rest).2) := by
  simp [processLines, h1, h2, h3]

lemma processLines_cons_plain {l : Text} (h1 : isOpenLine l = false)
    (h2 : isPseudoLine l = false) (h3 : isTailBare l = false) (rest : List Text) :
    processLines false (l :: rest) =
      (l :: (processLines false rest).1, (processLines false rest).2) := by
  simp [processLines, h1, h2, h3]

lemma processLines_cons_close {l : Text} (h : isCloseLine l = true) (rest : List Text) :
    processLines true (l :: rest) =
      (l :: (processLines false rest).1, (processLines false rest).2) := by
  simp [processLines, h]

lemma processLines_cons_notclose {l : Text} (h : isCloseLine l = false) (rest : List Text) :
    processLines true (l :: rest) =
      (l :: (processLines true rest).1, (processLines true rest).2) := by
  simp [processLines, h]

lemma fenceReplay_cons_open {l : Text} (h : isOpenLine l = true) (rest : List Text) :
    fenceReplay false (l :: rest) =
      ((fenceReplay true rest).1 + 1, (fenceReplay true rest).2) := by
  simp [fenceReplay, h]

lemma fenceReplay_cons_notopen {l : Text} (h : isOpenLine l = false) (rest : List Text) :
    fenceReplay false (l :: rest) = fenceReplay false rest := by
  simp [fenceReplay, h]

lemma fenceReplay_cons_close {l : Text} (h : isCloseLine l = true) (rest : List Text) :
    fenceReplay true (l :: rest) =
      ((fenceReplay false rest).1 + 1, (fenceReplay false rest).2) := by
  simp [fenceReplay, h]

lemma fenceReplay_cons_notclose {l : Text} (h : isCloseLine l = false) (rest : List Text) :
    fenceReplay true (l :: rest) = fenceReplay true rest := by
  simp [fenceReplay, h]

/-! ### The replay of the state machine over the sanitizer's output -/

lemma fenceReplay_processLines_state : ∀ (ls : List Text) (b : Bool),
    (fenceReplay b (processLines b ls).1).2 = (processLines b ls).2 := by
  intro ls
  induction ls with
  | nil => intro b; cases b <;> rfl
  | cons l rest ih =>
    intro b
    cases b with
    | false =>
      cases h1 : isOpenLine l with
      | true =>
        rw [processLines_cons_open h1, fenceReplay_cons_open h1]
        exact ih true
      | false =>
        cases h2 : isPseudoLine l with
        | true =>
          have hpre : fence.isPrefixOf (trimStart l) = true :=
            ((Bool.and_eq_true _ _).mp (by rwa [isPseudoLine] at h2)).1
          rw [processLines_cons_pseudo h1 h2,
            fenceReplay_cons_notopen
              (isOpenLine_eq_false_of_no_marker (replaceFirstFence_no_prefix_classes hpre))]
          exact ih false
        | false =>
          cases h3 : isTailBare l with
          | true =>
            have hnp := no_prefix_of_not_open_pseudo h1 h2
            have hsuf : fence.isSuffixOf l = true := by rwa [isTailBare] at h3
            rw [processLines_cons_tail h1 h2 h3,
              fenceReplay_cons_notopen
                (isOpenLine_eq_false_of_no_marker (defuseTail_no_open_marker hsuf hnp))]
            exact ih false
          | false =>
            rw [processLines_cons_plain h1 h2 h3, fenceReplay_cons_notopen h1]
            exact ih false
    | true =>
      cases hc : isCloseLine l with
      | true =>
        rw [processLines_cons_close hc, fenceReplay_cons_close hc]
        exact ih false
      | false =>
        rw [processLines_cons_notclose hc, fenceReplay_cons_notclose hc]
        exact ih true

lemma fenceReplay_parity : ∀ ls : List Text,
    ((fenceReplay false ls).2 = false → (fenceReplay false ls).1 % 2 = 0) ∧
      ((fenceReplay true ls).2 = false → (fenceReplay true ls).1 % 2 = 1) := by
  intro ls
  induction ls with
  | nil => exact ⟨fun _ => rfl, fun h => by cases h⟩
  | cons l rest ih =>
    constructor
    · cases h1 : isOpenLine l with
      | true =>
        rw [fenceReplay_cons_open h1]
        intro h
        have := ih.2 h
        omega
      | false =>
        rw [fenceReplay_cons_notopen h1]
        exact ih.1
    · cases hc : isCloseLine l with
      | true =>
        rw [fenceReplay_cons_close hc]
        intro h
        have := ih.1 h
        omega
      | false =>
        rw [fenceReplay_cons_notclose hc]
        exact ih.2

lemma fenceReplay_append : ∀ (xs : List Text) (b : Bool) (ys : List Text),
    fenceReplay b (xs ++ ys) =
      ((fenceReplay b xs).1 + (fenceReplay (fenceReplay b xs).2 ys).1,
        (fenceReplay (fenceReplay b xs).2 ys).2) := by
  intro xs
  induction xs with
  | nil =>
    intro b ys
    have h0 : fenceReplay b [] = (0, b) := by cases b <;> rfl
    show fenceReplay b ys = _
    rw [h0]
    simp
  | cons l xs ih =>
    intro b ys
    cases b with
    | false =>
      cases h1 : isOpenLine l with
      | true =>
        rw [List.cons_append, fenceReplay_cons_open h1, fenceReplay_cons_open h1, ih]
        rw [Prod.ext_iff]
        exact ⟨by simp; omega, rfl⟩
      | false =>
        rw [List.cons_append, fenceReplay_cons_notopen h1, fenceReplay_cons_notopen h1, ih]
    | true =>
      cases hc : isCloseLine l with
      | true =>
        rw [List.cons_append, fenceReplay_cons_close hc, fenceReplay_cons_close hc, ih]
        rw [Prod.ext_iff]
        exact ⟨by simp; omega, rfl⟩
      | false =>
        rw [List.cons_append, fenceReplay_cons_notclose hc, fenceReplay_cons_notclose hc, ih]

lemma processLines_append : ∀ (xs : List Text) (b : Bool) (ys : List Text),
    processLines b (xs ++ ys) =
      ((processLines b xs).1 ++ (processLines (processLines b xs).2 ys).1,
        (processLines (processLines b xs).2 ys).2) := by
  intro xs
  induction xs with
  | nil =>
    intro b ys
    have h0 : processLines b [] = ([], b) := by cases b <;> rfl
    show processLines b ys = _
    rw [h0]
    simp
  | cons l xs ih =>
    intro b ys
    cases b with
    | false =>
      cases h1 : isOpenLine l with
      | true =>
        rw [List.cons_append, processLines_cons_open h1, processLines_cons_open h1, ih]
        simp
      | false =>
        cases h2 : isPseudoLine l with
        | true =>
          rw [List.cons_append, processLines_cons_pseudo h1 h2,
            processLines_cons_pseudo h1 h2, ih]
          simp
        | false =>
          cases h3 : isTailBare l with
          | true =>
            rw [List.cons_append, processLines_cons_tail h1 h2 h3,
              processLines_cons_tail h1 h2 h3, ih]
            simp
          | false =>
            rw [List.cons_append, processLines_cons_plain h1 h2 h3,
              processLines_cons_plain h1 h2 h3, ih]
            simp
    | true =>
      cases hc : isCloseLine l with
      | true =>
        rw [List.cons_append, processLines_cons_close hc, processLines_cons_close hc, ih]
        simp
      | false =>
        rw [List.cons_append, processLines_cons_notclose hc, processLines_cons_notclose hc, ih]
        simp

/-- Reprocessing the sanitizer's output from the same start state changes
nothing, provided no input line both gets its leading marker defused and
ends in three backticks. -/
lemma processLines_stable : ∀ (ls : List Text) (b : Bool),
    (∀ l ∈ ls, isPseudoLine l = true → isTailBare l = false) →
    processLines b (processLines b ls).1 = processLines b ls := by
  intro ls
  induction ls with
  | nil => intro b _; cases b <;> rfl
  | cons l rest ih =>
    intro b h
    have hrest : ∀ x ∈ rest, isPseudoLine x = true → isTailBare x = false :=
      fun x hx => h x (List.mem_cons_of_mem l hx)
    have hl := h l (by simp)
    cases b with
    | false =>
      cases h1 : isOpenLine l with
      | true =>
        rw [processLines_cons_open h1, processLines_cons_open h1 ((processLines true rest).1),
          ih true hrest]
      | false =>
        cases h2 : isPseudoLine l with
        | true =>
          have hpre : fence.isPrefixOf (trimStart l) = true :=
            ((Bool.and_eq_true _ _).mp (by rwa [isPseudoLine] at h2)).1
          have hnopen := isOpenLine_eq_false_of_no_marker (replaceFirstFence_no_prefix_classes hpre)
          have hnpseudo := isPseudoLine_eq_false_of_no_prefix (replaceFirstFence_no_prefix_classes hpre)
          have hnotail : isTailBare (replaceFirstFence l) = false := by
            rw [isTailBare]
            exact replaceFirstFence_not_suffix hpre (by rw [← isTailBare]; exact hl h2)
          rw [processLines_cons_pseudo h1 h2,
            processLines_cons_plain hnopen hnpseudo hnotail ((processLines false rest).1),
            ih false hrest]
        | false =>
          cases h3 : isTailBare l with
          | true =>
            have hnp := no_prefix_of_not_open_pseudo h1 h2
            have hsuf : fence.isSuffixOf l = true := by rwa [isTailBare] at h3
            have hnopen := isOpenLine_eq_false_of_no_marker (defuseTail_no_open_marker hsuf hnp)
            have hnpseudo := isPseudoLine_eq_false_of_no_prefix (defuseTail_no_open_marker hsuf hnp)
            have hnotail : isTailBare (defuseTail l) = false := by
              rw [isTailBare]
              exact defuseTail_not_suffix hsuf
            rw [processLines_cons_tail h1 h2 h3,
              processLines_cons_plain hnopen hnpseudo hnotail ((processLines false rest).1),
              ih false hrest]
          | false =>
            rw [processLines_cons_plain h1 h2 h3,
              processLines_cons_plain h1 h2 h3 ((processLines false rest).1), ih false hrest]
    | true =>
      cases hc : isCloseLine l with
      | true =>
        rw [processLines_cons_close hc, processLines_cons_close hc ((processLines false rest).1),
          ih false hrest]
      | false =>
        rw [processLines_cons_notclose hc,
          processLines_cons_notclose hc ((processLines true rest).1), ih true hrest]

/-! ### The emitted lines are the input lines, defused or unchanged -/

lemma processLines_forall2 : ∀ (ls : List Text) (b : Bool),
    List.Forall₂ (fun l o => o = l ∨ o = replaceFirstFence l ∨ o = defuseTail l)
      ls (processLines b ls).1 := by
  intro ls
  induction ls with
  | nil => intro b; cases b <;> exact List.Forall₂.nil
  | cons l rest ih =>
    intro b
    cases b with
    | false =>
      cases h1 : isOpenLine l with
      | true =>
        rw [processLines_cons_open h1]
        exact List.Forall₂.cons (Or.inl rfl) (ih true)
      | false =>
        cases h2 : isPseudoLine l with
        | true =>
          rw [processLines_cons_pseudo h1 h2]
          exact List.Forall₂.cons (Or.inr (Or.inl rfl)) (ih false)
        | false =>
          cases h3 : isTailBare l with
          | true =>
            rw [processLines_cons_tail h1 h2 h3]
            exact List.Forall₂.cons (Or.inr (Or.inr rfl)) (ih false)
          | false =>
            rw [processLines_cons_plain h1 h2 h3]
            exact List.Forall₂.cons (Or.inl rfl) (ih false)
    | true =>
      cases hc : isCloseLine l with
      | true =>
        rw [processLines_cons_close hc]
        exact List.Forall₂.cons (Or.inl rfl) (ih false)
      | false =>
        rw [processLines_cons_notclose hc]
        exact List.Forall₂.cons (Or.inl rfl) (ih true)

/-! ### Per-line preservation facts for the defusing transformations -/

lemma replaceFirstFence_no_nl {l : Text} (h : '\n' ∉ l) : '\n' ∉ replaceFirstFence l := by
  induction l with
  | nil => simp [replaceFirstFence]
  | cons c rest ih =>
    rw [replaceFirstFence]
    split
    · intro hm
      rcases List.mem_append.mp hm with h1 | h1
      · exact absurd h1 (by decide)
      · exact h ((List.drop_sublist 3 (c :: rest)).mem h1)
    · intro hm
      rcases List.mem_cons.mp hm with h1 | h1
      · exact h (List.mem_cons.mpr (Or.inl h1))
      · exact ih (fun hx => h (List.mem_cons_of_mem c hx)) h1

lemma defuseTail_no_nl {l : Text} (h : '\n' ∉ l) : '\n' ∉ defuseTail l := by
  rw [defuseTail]
  intro hm
  rcases List.mem_append.mp hm with h1 | h1
  · exact h ((List.take_sublist _ l).mem h1)
  · exact absurd h1 (by decide)

lemma replaceFirstFence_ne_nil {l : Text} (h : l ≠ []) : replaceFirstFence l ≠ [] := by
  cases l with
  | nil => exact absurd rfl h
  | cons c rest =>
    rw [replaceFirstFence]
    split
    · simp [defusedRun]
    · simp

lemma defuseTail_ne_nil (l : Text) : defuseTail l ≠ [] := by
  simp [defuseTail, defusedRun]

lemma getLast?_drop_ne_nil {l : Text} {n : Nat} (h : l.drop n ≠ []) :
    (l.drop n).getLast? = l.getLast? := by
  conv_rhs => rw [← List.take_append_drop n l]
  rw [List.getLast?_append]
  obtain ⟨a, ha⟩ := Option.isSome_iff_exists.mp (List.getLast?_isSome.mpr h)
  rw [ha]
  rfl

lemma replaceFirstFence_getLast (l : Text) :
    (replaceFirstFence l).getLast? = l.getLast? ∨
      (replaceFirstFence l).getLast? = some btick := by
  induction l with
  | nil => left; rfl
  | cons c rest ih =>
    rw [replaceFirstFence]
    split
    · rcases hd : (c :: rest).drop 3 with _ | ⟨x, xs⟩
      · right
        decide
      · left
        rw [List.getLast?_append, ← hd, getLast?_drop_ne_nil (by rw [hd]; simp)]
        obtain ⟨a, ha⟩ := Option.isSome_iff_exists.mp
          (List.getLast?_isSome.mpr (by simp : (c :: rest : Text) ≠ []))
        rw [ha]
        rfl
    · cases rest with
      | nil => left; rfl
      | cons d rest' =>
        have hne : replaceFirstFence (d :: rest') ≠ [] :=
          replaceFirstFence_ne_nil (by simp)
        have e1 : (c :: replaceFirstFence (d :: rest')).getLast? =
            (replaceFirstFence (d :: rest')).getLast? := by
          rw [show (c :: replaceFirstFence (d :: rest') : Text) =
            [c] ++ replaceFirstFence (d :: rest') from rfl, List.getLast?_append]
          obtain ⟨a, ha⟩ := Option.isSome_iff_exists.mp (List.getLast?_isSome.mpr hne)
          rw [ha]
          rfl
        rw [e1, List.getLast?_cons_cons]
        exact ih

lemma defuseTail_getLast (l : Text) : (defuseTail l).getLast? = some btick := by
  rw [defuseTail, List.getLast?_append,
    show defusedRun.getLast? = some btick from by decide]
  rfl

/-! ### Lifting line facts through the processing relation -/

lemma forall2_mem_right {R : Text → Text → Prop} :
    ∀ {ls out : List Text}, List.Forall₂ R ls out → ∀ o ∈ out, ∃ l ∈ ls, R l o := by
  intro ls out h
  induction h with
  | nil => intro o ho; simp at ho
  | cons h1 h2 ih =>
    intro o ho
    rcases List.mem_cons.mp ho with h3 | h3
    · subst h3
      exact ⟨_, by simp, h1⟩
    · obtain ⟨l, hl, hR⟩ := ih o h3
      exact ⟨l, List.mem_cons_of_mem _ hl, hR⟩

lemma forall2_getLast? {R : Text → Text → Prop} :
    ∀ {ls out : List Text}, List.Forall₂ R ls out →
      (ls = [] ∧ out = []) ∨
        (∃ a b, ls.getLast? = some a ∧ out.getLast? = some b ∧ R a b) := by
  intro ls out h
  induction h with
  | nil => exact Or.inl ⟨rfl, rfl⟩
  | @cons a b l₁ l₂ h1 h2 ih =>
    rcases ih with ⟨ha, hb⟩ | ⟨x, y, hx, hy, hxy⟩
    · subst ha
      subst hb
      exact Or.inr ⟨a, b, rfl, rfl, h1⟩
    · right
      refine ⟨x, y, ?_, ?_, hxy⟩
      · rw [show (a :: l₁) = [a] ++ l₁ from rfl, List.getLast?_append, hx]
        rfl
      · rw [show (b :: l₂) = [b] ++ l₂ from rfl, List.getLast?_append, hy]
        rfl

/-! ### Facts about the sanitized line list -/

lemma sanitize_eq_joinNl (input : Text) :
    sanitize_chat_markdown input = joinNl (sanitizedLines input) := rfl

lemma sanitizedLines_no_nl (x : Text) : ∀ l ∈ sanitizedLines x, '\n' ∉ l := by
  intro l hl
  have hproc : ∀ o ∈ (processLines false (rustLines x)).1, '\n' ∉ o := by
    intro o ho
    obtain ⟨a, ha, hR⟩ := forall2_mem_right (processLines_forall2 (rustLines x) false) o ho
    have hna : '\n' ∉ a := rustLines_no_nl x a ha
    rcases hR with rfl | rfl | rfl
    · exact hna
    · exact replaceFirstFence_no_nl hna
    · exact defuseTail_no_nl hna
  rw [sanitizedLines] at hl
  split at hl
  · rcases List.mem_append.mp hl with h1 | h1
    · exact hproc l h1
    · have : l = fence := by simpa using h1
      subst this
      decide
  · exact hproc l hl

lemma sanitizedLines_cr_free (x : Text)
    (hcr : ∀ l ∈ rustLines x, l.getLast? ≠ some '\r') :
    ∀ l ∈ sanitizedLines x, l.getLast? ≠ some '\r' := by
  intro l hl
  have hproc : ∀ o ∈ (processLines false (rustLines x)).1, o.getLast? ≠ some '\r' := by
    intro o ho
    obtain ⟨a, ha, hR⟩ := forall2_mem_right (processLines_forall2 (rustLines x) false) o ho
    have hca := hcr a ha
    rcases hR with rfl | rfl | rfl
    · exact hca
    · rcases replaceFirstFence_getLast a with h1 | h1
      · rw [h1]; exact hca
      · rw [h1]; intro hx; exact absurd (Option.some.inj hx) (by decide)
    · rw [defuseTail_getLast]
      intro hx
      exact absurd (Option.some.inj hx) (by decide)
  rw [sanitizedLines] at hl
  split at hl
  · rcases List.mem_append.mp hl with h1 | h1
    · exact hproc l h1
    · have : l = fence := by simpa using h1
      subst this
      decide
  · exact hproc l hl

lemma sanitizedLines_last_ne_nil (x : Text)
    (hlast : (rustLines x).getLast? ≠ some []) :
    (sanitizedLines x).getLast? ≠ some [] := by
  rw [sanitizedLines]
  split
  · rw [List.getLast?_concat]
    intro hx
    exact absurd (Option.some.inj hx) (by decide)
  · rcases forall2_getLast? (processLines_forall2 (rustLines x) false) with ⟨_, h2⟩ | h2
    · rw [h2]
      simp
    · obtain ⟨a, b, ha, hb, hR⟩ := h2
      rw [hb]
      intro hx
      have hbn : b = [] := Option.some.inj hx
      subst hbn
      have hane : a ≠ [] := fun h => hlast (h ▸ ha)
      rcases hR with h3 | h3 | h3
      · exact hane h3.symm
      · exact replaceFirstFence_ne_nil hane h3.symm
      · exact defuseTail_ne_nil a h3.symm

/-! ### Fence balance of the sanitizer's output -/

lemma fenceReplay_sanitizedLines (x : Text) :
    (fenceReplay false (sanitizedLines x)).2 = false := by
  rw [sanitizedLines]
  cases hf : (processLines false (rustLines x)).2 with
  | false =>
    simp only [hf, Bool.false_eq_true, if_false]
    have := fenceReplay_processLines_state (rustLines x) false
    rw [hf] at this
    exact this
  | true =>
    simp only [hf, if_true]
    rw [fenceReplay_append]
    have hS : (fenceReplay false (processLines false (rustLines x)).1).2 = true := by
      rw [fenceReplay_processLines_state, hf]
    rw [hS, show fenceReplay true [fence] = (1, false) from by decide]

lemma rustLines_sanitize (x : Text) :
    rustLines (sanitize_chat_markdown x) = rejoinNorm (sanitizedLines x) := by
  rw [sanitize_eq_joinNl, rustLines_joinNl (sanitizedLines_no_nl x)]

lemma fenceReplay_sanitize (x : Text) :
    (fenceReplay false (rustLines (sanitize_chat_markdown x))).2 = false ∧
      (fenceReplay false (rustLines (sanitize_chat_markdown x))).1 % 2 = 0 := by
  rw [rustLines_sanitize, fenceReplay_rejoinNorm]
  exact ⟨fenceReplay_sanitizedLines x,
    (fenceReplay_parity (sanitizedLines x)).1 (fenceReplay_sanitizedLines x)⟩

/-! ### Conditional idempotence of the sanitizer -/

lemma processLines_sanitizedLines (x : Text)
    (hpt : ∀ l ∈ rustLines x, isPseudoLine l = true → isTailBare l = false) :
    processLines false (sanitizedLines x) = (sanitizedLines x, false) := by
  have hstab := processLines_stable (rustLines x) false hpt
  rw [sanitizedLines]
  cases hf : (processLines false (rustLines x)).2 with
  | false =>
    simp only [hf, Bool.false_eq_true, if_false]
    rw [hstab, Prod.ext_iff]
    exact ⟨rfl, hf⟩
  | true =>
    simp only [hf, if_true]
    rw [processLines_append, hstab]
    rw [hf, show processLines true [fence] = ([fence], false) from by decide]

lemma sanitize_idem (x : Text)
    (hcr : ∀ l ∈ rustLines x, l.getLast? ≠ some '\r')
    (hpt : ∀ l ∈ rustLines x, isPseudoLine l = true → isTailBare l = false)
    (hlast : (rustLines x).getLast? ≠ some []) :
    sanitize_chat_markdown (sanitize_chat_markdown x) = sanitize_chat_markdown x := by
  have hre : rustLines (sanitize_chat_markdown x) = sanitizedLines x := by
    rw [rustLines_sanitize,
      rejoinNorm_id (sanitizedLines_cr_free x hcr) (sanitizedLines_last_ne_nil x hlast)]
  have hproc := processLines_sanitizedLines x hpt
  rw [sanitize_eq_joinNl (sanitize_chat_markdown x), sanitizedLines, hre, hproc]
  simp only [Bool.false_eq_true, if_false]
  rw [← sanitize_eq_joinNl]

/-! ### The sanitizer and trailing newlines -/

lemma rustLinesGo_ne_nil : ∀ (s acc : Text), rustLinesGo acc s ≠ [] := by
  intro s
  induction s with
  | nil => intro acc; simp [rustLinesGo]
  | cons c rest ih =>
    intro acc
    rw [rustLinesGo]
    by_cases hc : c = '\n'
    · rw [if_pos hc]
      simp
    · rw [if_neg hc]
      exact ih (c :: acc)

lemma rustLinesGo_snoc_nl : ∀ (t : Text) (d : Char), t.getLast? = some d → d ≠ '\n' →
    d ≠ '\r' → ∀ acc, rustLinesGo acc (t ++ ['\n']) = rustLinesGo acc t := by
  intro t
  induction t with
  | nil =>
    intro d hd
    simp at hd
  | cons c t ih =>
    intro d hd hn hr acc
    cases t with
    | nil =>
      have hc : c = d := by simpa using hd
      subst hc
      have e1 : rustLinesGo acc ([c] ++ ['\n']) = rustLinesGo (c :: acc) ['\n'] := by
        rw [show ([c] ++ ['\n'] : Text) = c :: ['\n'] from rfl, rustLinesGo, if_neg hn]
      have e2 : rustLinesGo (c :: acc) ['\n'] = [dropFinalCr (c :: acc).reverse] := by
        rw [rustLinesGo, if_pos rfl, if_pos rfl]
      have e3 : dropFinalCr ((c :: acc).reverse) = (c :: acc).reverse := by
        rw [dropFinalCr, if_neg]
        rw [List.reverse_cons, List.getLast?_concat]
        intro hx
        exact hr (Option.some.inj hx)
      have e4 : rustLinesGo acc [c] = [(c :: acc).reverse] := by
        rw [rustLinesGo, if_neg hn, rustLinesGo]
      rw [e1, e2, e3, e4]
    | cons c2 t' =>
      have hd' : (c2 :: t').getLast? = some d := by rwa [List.getLast?_cons_cons] at hd
      by_cases hc : c = '\n'
      · subst hc
        have e1 : rustLinesGo acc (('\n' :: c2 :: t') ++ ['\n']) =
            dropFinalCr acc.reverse :: rustLinesGo [] ((c2 :: t') ++ ['\n']) := by
          rw [show (('\n' :: c2 :: t') ++ ['\n'] : Text) = '\n' :: ((c2 :: t') ++ ['\n'])
            from rfl, rustLinesGo, if_pos rfl, if_neg (by simp)]
        have e2 : rustLinesGo acc ('\n' :: c2 :: t') =
            dropFinalCr acc.reverse :: rustLinesGo [] (c2 :: t') := by
          rw [rustLinesGo, if_pos rfl, if_neg (by simp)]
        rw [e1, e2, ih d hd' hn hr []]
      · have e1 : rustLinesGo acc ((c :: c2 :: t') ++ ['\n']) =
            rustLinesGo (c :: acc) ((c2 :: t') ++ ['\n']) := by
          rw [show ((c :: c2 :: t') ++ ['\n'] : Text) = c :: ((c2 :: t') ++ ['\n'])
            from rfl, rustLinesGo, if_neg hc]
        have e2 : rustLinesGo acc (c :: c2 :: t') = rustLinesGo (c :: acc) (c2 :: t') := by
          rw [rustLinesGo, if_neg hc]
        rw [e1, e2, ih d hd' hn hr (c :: acc)]

lemma rustLines_snoc_nl {t : Text} {d : Char} (hd : t.getLast? = some d)
    (hn : d ≠ '\n') (hr : d ≠ '\r') : rustLines (t ++ ['\n']) = rustLines t := by
  have htne : t ≠ [] := by
    intro h
    subst h
    simp at hd
  rw [rustLines_eq_go (by simp), rustLines_eq_go htne,
    rustLinesGo_snoc_nl t d hd hn hr []]

lemma rustLinesGo_snoc_last : ∀ (s : Text) (c : Char), c ≠ '\n' → ∀ acc,
    ∃ m, (rustLinesGo acc (s ++ [c])).getLast? = some (m ++ [c]) := by
  intro s
  induction s with
  | nil =>
    intro c hc acc
    refine ⟨acc.reverse, ?_⟩
    rw [show (([] : Text) ++ [c]) = [c] from rfl, rustLinesGo, if_neg hc, rustLinesGo]
    simp
  | cons a s' ih =>
    intro c hc acc
    by_cases ha : a = '\n'
    · subst ha
      obtain ⟨m, hm⟩ := ih c hc []
      refine ⟨m, ?_⟩
      rw [show (('\n' :: s') ++ [c] : Text) = '\n' :: (s' ++ [c]) from rfl,
        rustLinesGo, if_pos rfl, if_neg (by simp)]
      rw [show (dropFinalCr acc.reverse :: rustLinesGo [] (s' ++ [c])) =
        [dropFinalCr acc.reverse] ++ rustLinesGo [] (s' ++ [c]) from rfl,
        List.getLast?_append, hm]
      rfl
    · obtain ⟨m, hm⟩ := ih c hc (a :: acc)
      refine ⟨m, ?_⟩
      rw [show ((a :: s') ++ [c] : Text) = a :: (s' ++ [c]) from rfl,
        rustLinesGo, if_neg ha]
      exact hm

lemma rustLines_snoc_last (y : Text) {c : Char} (hc : c ≠ '\n') :
    ∃ m, (rustLines (y ++ [c])).getLast? = some (m ++ [c]) := by
  rw [rustLines_eq_go (by simp)]
  exact rustLinesGo_snoc_last y c hc []

lemma joinNl_getLast : ∀ {ls : List Text} {o : Text}, ls.getLast? = some o → o ≠ [] →
    (joinNl ls).getLast? = o.getLast? := by
  intro ls
  induction ls with
  | nil =>
    intro o ho
    simp at ho
  | cons l rest ih =>
    intro o ho hone
    cases rest with
    | nil =>
      have : l = o := by simpa using ho
      subst this
      rfl
    | cons l2 rest' =>
      have ho' : (l2 :: rest').getLast? = some o := by
        rwa [List.getLast?_cons_cons] at ho
      show (l ++ '\n' :: joinNl (l2 :: rest')).getLast? = o.getLast?
      rw [List.getLast?_append]
      have hj : ('\n' :: joinNl (l2 :: rest')).getLast? = o.getLast? := by
        rw [show ('\n' :: joinNl (l2 :: rest') : Text) =
          ['\n'] ++ joinNl (l2 :: rest') from rfl, List.getLast?_append, ih ho' hone]
        obtain ⟨d, hd⟩ := Option.isSome_iff_exists.mp (List.getLast?_isSome.mpr hone)
        rw [hd]
        rfl
      rw [hj]
      obtain ⟨d, hd⟩ := Option.isSome_iff_exists.mp (List.getLast?_isSome.mpr hone)
      rw [hd]
      rfl

lemma sanitizedLines_getLast_good (x : Text)
    (h : ∃ a, (rustLines x).getLast? = some a ∧ a ≠ []) :
    ∃ o, (sanitizedLines x).getLast? = some o ∧ o ≠ [] ∧ '\n' ∉ o := by
  rw [sanitizedLines]
  split
  · exact ⟨fence, by rw [List.getLast?_concat], by decide, by decide⟩
  · obtain ⟨a, ha, hane⟩ := h
    rcases forall2_getLast? (processLines_forall2 (rustLines x) false) with
      ⟨h1, _⟩ | ⟨a', b, ha', hb, hR⟩
    · rw [h1] at ha
      simp at ha
    · have haa : a' = a := by
        rw [ha'] at ha
        exact Option.some.inj ha
      subst haa
      have hnla : '\n' ∉ a' := rustLines_no_nl x a' (List.mem_of_getLast?_eq_some ha')
      refine ⟨b, hb, ?_, ?_⟩
      · rcases hR with h3 | h3 | h3
        · rw [h3]; exact hane
        · rw [h3]; exact replaceFirstFence_ne_nil hane
        · rw [h3]; exact defuseTail_ne_nil _
      · rcases hR with h3 | h3 | h3
        · rw [h3]; exact hnla
        · rw [h3]; exact replaceFirstFence_no_nl hnla
        · rw [h3]; exact defuseTail_no_nl hnla

lemma sanitize_snoc_getLast (y : Text) (c : Char) (hn : c ≠ '\n') (hr : c ≠ '\r') :
    (sanitize_chat_markdown (y ++ [c, '\n'])).getLast? ≠ some '\n' := by
  have hsplit : (y ++ [c, '\n']) = (y ++ [c]) ++ ['\n'] := by simp
  have hlines : rustLines (y ++ [c, '\n']) = rustLines (y ++ [c]) := by
    rw [hsplit]
    exact rustLines_snoc_nl (List.getLast?_concat y) hn hr
  obtain ⟨m, hm⟩ := rustLines_snoc_last y hn
  obtain ⟨o, ho, hone, hnlo⟩ := sanitizedLines_getLast_good (y ++ [c, '\n'])
    ⟨m ++ [c], by rw [hlines, hm], by simp⟩
  rw [sanitize_eq_joinNl, joinNl_getLast ho hone]
  obtain ⟨d, hd⟩ := Option.isSome_iff_exists.mp (List.getLast?_isSome.mpr hone)
  rw [hd]
  intro hx
  have hdn : d = '\n' := Option.some.inj hx
  subst hdn
  exact hnlo (List.mem_of_getLast?_eq_some hd)

/-! ### The normalizer -/

lemma normalizeGo_some : ∀ (raws : List RawMsg) (s : Text),
    normalizeGo (some s) raws = (some s, raws.map demote) := by
  intro raws
  induction raws with
  | nil => intro s; rfl
  | cons rm rest ih =>
    intro s
    cases hs : isSystemRec rm with
    | true => simp [normalizeGo, demote, hs, ih]
    | false =>
      simp only [normalizeGo, hs, Bool.false_eq_true, if_false, ih, List.map_cons]
      split_ifs with h1 h2
      · have h1a : rustToLowercase rm.role = ['u', 's', 'e', 'r'] := by simpa using h1
        simp [demote, hs, h1a]
      · have h1a : ¬rustToLowercase rm.role = ['u', 's', 'e', 'r'] := by simpa using h1
        have h2a : rustToLowercase rm.role = ['a', 's', 's', 'i', 's', 't', 'a', 'n', 't'] := by simpa using h2
        simp [demote, hs, h1a, h2a]
      · have h1a : ¬rustToLowercase rm.role = ['u', 's', 'e', 'r'] := by simpa using h1
        have h2a : ¬rustToLowercase rm.role = ['a', 's', 's', 'i', 's', 't', 'a', 'n', 't'] := by simpa using h2
        simp [demote, hs, h1a, h2a]

lemma normalizeGo_none : ∀ raws : List RawMsg,
    normalizeGo none raws =
      ((raws.find? isSystemRec).map (fun r => normContent r.content),
        (raws.eraseP isSystemRec).map demote) := by
  intro raws
  induction raws with
  | nil => rfl
  | cons rm rest ih =>
    cases hs : isSystemRec rm with
    | true =>
      have e : normalizeGo none (rm :: rest) =
          normalizeGo (some (normContent rm.content)) rest := by
        simp [normalizeGo, hs]
      rw [e, normalizeGo_some, List.find?_cons_of_pos _ hs, List.eraseP_cons_of_pos hs]
      rfl
    | false =>
      have e : normalizeGo none (rm :: rest) =
          ((normalizeGo none rest).1, demote rm :: (normalizeGo none rest).2) := by
        simp only [normalizeGo, hs, Bool.false_eq_true, if_false]
        split_ifs with h1 h2
        · have h1a : rustToLowercase rm.role = ['u', 's', 'e', 'r'] := by simpa using h1
          simp [demote, hs, h1a]
        · have h1a : ¬rustToLowercase rm.role = ['u', 's', 'e', 'r'] := by simpa using h1
          have h2a : rustToLowercase rm.role = ['a', 's', 's', 'i', 's', 't', 'a', 'n', 't'] := by simpa using h2
          simp [demote, hs, h1a, h2a]
        · have h1a : ¬rustToLowercase rm.role = ['u', 's', 'e', 'r'] := by simpa using h1
          have h2a : ¬rustToLowercase rm.role = ['a', 's', 's', 'i', 's', 't', 'a', 'n', 't'] := by simpa using h2
          simp [demote, hs, h1a, h2a]
      rw [e, ih, List.find?_cons_of_neg _ (by simp [hs]),
        List.eraseP_cons_of_neg (by simp [hs])]
      rfl

lemma normalize_system (raws : List RawMsg) :
    (normalize raws).system =
      (raws.find? isSystemRec).map (fun r => normContent r.content) := by
  show (normalizeGo none raws).1 = _
  rw [normalizeGo_none]

lemma normalize_messages (raws : List RawMsg) :
    (normalize raws).messages = (raws.eraseP isSystemRec).map demote := by
  show (normalizeGo none raws).2 = _
  rw [normalizeGo_none]

lemma length_eraseP_if : ∀ l : List RawMsg,
    (l.eraseP isSystemRec).length + (if l.any isSystemRec then 1 else 0) = l.length := by
  intro l
  induction l with
  | nil => simp
  | cons a t ih =>
    cases hs : isSystemRec a with
    | true => simp [List.eraseP_cons_of_pos hs, hs]
    | false =>
      rw [List.eraseP_cons_of_neg (by simp [hs])]
      simp only [List.any_cons, hs, Bool.false_or, List.length_cons]
      omega

lemma mem_eraseP_of_not {r : RawMsg} : ∀ {l : List RawMsg}, r ∈ l →
    isSystemRec r = false → r ∈ l.eraseP isSystemRec := by
  intro l
  induction l with
  | nil => intro h; cases h
  | cons a t ih =>
    intro h hn
    cases hs : isSystemRec a with
    | true =>
      rw [List.eraseP_cons_of_pos hs]
      rcases List.mem_cons.mp h with h1 | h1
      · subst h1
        rw [hn] at hs
        cases hs
      · exact h1
    | false =>
      rw [List.eraseP_cons_of_neg (by simp [hs])]
      rcases List.mem_cons.mp h with h1 | h1
      · subst h1
        simp
      · exact List.mem_cons_of_mem a (ih h1 hn)

/-! ### The JSONL parser -/

lemma pjweGo_spec (dec : Text → Option RawMsg) : ∀ ls : List Text,
    pjweGo dec ls =
      (ls.filterMap (fun l => if (rustTrim l).isEmpty then none else dec (rustTrim l)),
        (ls.filter (fun l => !(rustTrim l).isEmpty && (dec (rustTrim l)).isNone)).length) := by
  intro ls
  induction ls with
  | nil => rfl
  | cons l rest ih =>
    rcases em (rustTrim l = []) with he | he
    · have he2 : (rustTrim l).isEmpty = true := by simp [he]
      simp [pjweGo, he, he2, ih, List.filterMap_cons, List.filter_cons]
    · have he2 : (rustTrim l).isEmpty = false := by simpa using he
      cases hdec : dec (rustTrim l) with
      | none => simp [pjweGo, he, he2, hdec, ih, List.filterMap_cons, List.filter_cons]
      | some m => simp [pjweGo, he, he2, hdec, ih, List.filterMap_cons, List.filter_cons]

lemma detect_and_parse_line_mode (dec : Text → Option RawMsg)
    (arrDec : Text → Option (List RawMsg)) {text : Text}
    (h : firstNonWs text ≠ some '[') :
    detect_and_parse dec arrDec text =
      .ok ((parse_jsonl_with_errors dec text).1,
        if (parse_jsonl_with_errors dec text).2 > 0 then
          [jsonlWarning (parse_jsonl_with_errors dec text).2]
        else []) := by
  rw [detect_and_parse, if_neg h]

/-! ### The Markdown exporter as a flat concatenation -/

lemma foldl_append_flatten {α : Type} (f : α → Text) : ∀ (l : List α) (init : Text),
    l.foldl (fun out m => out ++ f m) init = init ++ (l.map f).flatten := by
  intro l
  induction l with
  | nil => intro init; simp
  | cons m l ih =>
    intro init
    rw [List.foldl_cons, ih, List.map_cons, List.flatten_cons, List.append_assoc]

/-! ### Fatal errors of a load -/

lemma load_from_bytes_fatal (utf8 : List Nat → Option Text) (dec : Text → Option RawMsg)
    (arrDec : Text → Option (List RawMsg)) (bytes : List Nat) :
    exceptError (load_from_bytes utf8 dec arrDec bytes) =
      loadFatalSpec utf8 arrDec bytes := by
  rw [load_from_bytes]
  by_cases hsize : bytes.length > 20 * 1024 * 1024
  · rw [if_pos hsize]
    cases hu : utf8 bytes with
    | none => simp [loadFatalSpec, hu, exceptError]
    | some text =>
      by_cases hb : firstNonWs text = some '['
      · cases ha : arrDec text with
        | none => simp [loadFatalSpec, detect_and_parse, parse_json, hu, hb, ha, exceptError]
        | some v => simp [loadFatalSpec, detect_and_parse, parse_json, hu, hb, ha, exceptError]
      · simp [loadFatalSpec, detect_and_parse, hu, hb, exceptError]
  · rw [if_neg hsize]
    cases hu : utf8 bytes with
    | none => simp [loadFatalSpec, hu, exceptError]
    | some text =>
      by_cases hb : firstNonWs text = some '['
      · cases ha : arrDec text with
        | none => simp [loadFatalSpec, detect_and_parse, parse_json, hu, hb, ha, exceptError]
        | some v => simp [loadFatalSpec, detect_and_parse, parse_json, hu, hb, ha, exceptError]
      · simp [loadFatalSpec, detect_and_parse, hu, hb, exceptError]

/-! ## The claims -/

/-- C1, counterexample: the claim counts fence-delimiter lines as lines
whose trimmed content is exactly three backticks; for the input
`"```python\nprint(1)"` the sanitized output is
`"```python\nprint(1)\n```"`, whose only such line is the appended closing
fence — an odd count, so the stated parity fails on a language-tagged
fence. -/
theorem claim_c1_counterexample :
    countBareFenceLines (sanitize_chat_markdown ("```python\nprint(1)".toList)) % 2 = 1 := by
  decide

/-- C1, amended: for every input, replaying the sanitizer's fence state
machine over the sanitized output ends in the Outside state, and the
number of fence-delimiter lines it recognizes (an opening fence — three
backticks, optionally with a language tag — while outside, a closing fence
while inside) is even: every fence opened is closed. -/
theorem claim_c1_amended (x : Text) :
    (fenceReplay false (rustLines (sanitize_chat_markdown x))).2 = false ∧
      (fenceReplay false (rustLines (sanitize_chat_markdown x))).1 % 2 = 0 :=
  fenceReplay_sanitize x

/-- C2, counterexample: the sanitizer is not idempotent: it rebuilds its
output by joining lines with `"\n"`, so `"\n\n"` sanitizes to `"\n"` and
sanitizing again gives `""`. -/
theorem claim_c2_counterexample :
    sanitize_chat_markdown (sanitize_chat_markdown ("\n\n".toList)) ≠
      sanitize_chat_markdown ("\n\n".toList) := by
  decide

/-- C2, amended: the sanitizer is idempotent on every input whose lines
carry no trailing carriage return, whose last line is nonempty (when the
input has any line), and in which no line would both get its leading
triple-backtick marker defused and still end in three backticks. -/
theorem claim_c2_amended (x : Text)
    (hcr : ∀ l ∈ rustLines x, l.getLast? ≠ some '\r')
    (hpt : ∀ l ∈ rustLines x, isPseudoLine l = true → isTailBare l = false)
    (hlast : (rustLines x).getLast? ≠ some []) :
    sanitize_chat_markdown (sanitize_chat_markdown x) = sanitize_chat_markdown x :=
  sanitize_idem x hcr hpt hlast

/-- C2, witness: the amended idempotence applies to the concrete input
`"``` two words"` (a defused pseudo-fence line). -/
theorem claim_c2_witness :
    (∀ l ∈ rustLines ("``` two words".toList), l.getLast? ≠ some '\r') ∧
      (∀ l ∈ rustLines ("``` two words".toList),
        isPseudoLine l = true → isTailBare l = false) ∧
      (rustLines ("``` two words".toList)).getLast? ≠ some [] ∧
      sanitize_chat_markdown (sanitize_chat_markdown ("``` two words".toList)) =
        sanitize_chat_markdown ("``` two words".toList) :=
  ⟨by decide, by decide, by decide,
    claim_c2_amended ("``` two words".toList) (by decide) (by decide) (by decide)⟩

/-- C3: in line mode (first non-whitespace character is not `'['`),
`detect_and_parse` succeeds, yields exactly the decodable non-blank lines'
records in their original order (blank lines skipped without counting as
failures), and emits exactly one aggregated warning
`"<M> JSONL line(s) failed to parse"` when M, the number of non-blank
undecodable lines, is positive — and no warning otherwise. -/
theorem claim_c3 (dec : Text → Option RawMsg) (arrDec : Text → Option (List RawMsg))
    (text : Text) (h : firstNonWs text ≠ some '[') :
    detect_and_parse dec arrDec text =
      .ok ((rustLines text).filterMap
            (fun l => if (rustTrim l).isEmpty then none else dec (rustTrim l)),
          if ((rustLines text).filter
                (fun l => !(rustTrim l).isEmpty && (dec (rustTrim l)).isNone)).length > 0
          then [jsonlWarning (((rustLines text).filter
                (fun l => !(rustTrim l).isEmpty && (dec (rustTrim l)).isNone)).length)]
          else []) := by
  rw [detect_and_parse_line_mode dec arrDec h,
    show parse_jsonl_with_errors dec text = pjweGo dec (rustLines text) from rfl,
    pjweGo_spec]

/-- C3, witness: the line-mode contract at the concrete input
`"v\n\nbad\nv"` with a decoder accepting exactly `v`. -/
theorem claim_c3_witness :
    firstNonWs c3Input ≠ some '[' ∧
      detect_and_parse c3Dec c3Arr c3Input =
        .ok ((rustLines c3Input).filterMap
              (fun l => if (rustTrim l).isEmpty then none else c3Dec (rustTrim l)),
            if ((rustLines c3Input).filter
                  (fun l => !(rustTrim l).isEmpty && (c3Dec (rustTrim l)).isNone)).length > 0
            then [jsonlWarning (((rustLines c3Input).filter
                  (fun l => !(rustTrim l).isEmpty && (c3Dec (rustTrim l)).isNone)).length)]
            else []) :=
  ⟨by decide, claim_c3 c3Dec c3Arr c3Input (by decide)⟩

/-- C4: normalize fills the system slot from the first record whose
lower-cased role is `system`; the turn list is exactly the remaining
records, in order, mapped by `demote` (which sends any further `system`
record to a turn with role `Other "System (extra)"` and its normalized
content); and no record is dropped: the turn count plus one for an
occupied system slot equals the record count. -/
theorem claim_c4 (raws : List RawMsg) :
    (normalize raws).system =
        (raws.find? isSystemRec).map (fun r => normContent r.content) ∧
      (normalize raws).messages = (raws.eraseP isSystemRec).map demote ∧
      (normalize raws).messages.length +
          (if raws.any isSystemRec then 1 else 0) = raws.length := by
  refine ⟨normalize_system raws, normalize_messages raws, ?_⟩
  rw [normalize_messages, List.length_map]
  exact length_eraseP_if raws

/-- C5, counterexample: the claim says `Other` stores the original,
un-lowercased role string; the code stores the lower-cased one: the record
with role `"Tool"` normalizes to a turn with role `Other "tool"`, not
`Other "Tool"`. -/
theorem claim_c5_counterexample :
    (normalize [⟨"Tool".toList, "hi".toList⟩]).messages =
        [⟨.Other ("tool".toList), "hi".toList⟩] ∧
      (normalize [⟨"Tool".toList, "hi".toList⟩]).messages ≠
        [⟨.Other ("Tool".toList), "hi".toList⟩] := by
  decide

/-- C5, amended: a record whose lower-cased role is none of `system`,
`user`, `assistant` yields a turn with role `Other` carrying the
lower-cased role string (the original casing is recovered only at display
time via `title_case`), with its normalized content. -/
theorem claim_c5_amended (raws : List RawMsg) (r : RawMsg) (hmem : r ∈ raws)
    (h1 : rustToLowercase r.role ≠ "system".toList)
    (h2 : rustToLowercase r.role ≠ "user".toList)
    (h3 : rustToLowercase r.role ≠ "assistant".toList) :
    (⟨.Other (rustToLowercase r.role), normContent r.content⟩ : Msg) ∈
      (normalize raws).messages := by
  rw [normalize_messages]
  have h1a : rustToLowercase r.role ≠ ['s', 'y', 's', 't', 'e', 'm'] := h1
  have h2a : rustToLowercase r.role ≠ ['u', 's', 'e', 'r'] := h2
  have h3a : rustToLowercase r.role ≠ ['a', 's', 's', 'i', 's', 't', 'a', 'n', 't'] := h3
  have hnotsys : isSystemRec r = false := by
    simp [isSystemRec, h1a]
  have hr : r ∈ raws.eraseP isSystemRec := mem_eraseP_of_not hmem hnotsys
  have hdem : demote r = ⟨.Other (rustToLowercase r.role), normContent r.content⟩ := by
    rw [demote, if_neg (by simp [hnotsys]), if_neg (by simp [h2a]), if_neg (by simp [h3a])]
  rw [← hdem]
  exact List.mem_map_of_mem demote hr

/-- C5, witness: the amended statement at the concrete record
`{role := "Tool", content := "hi"}`. -/
theorem claim_c5_witness :
    (⟨"Tool".toList, "hi".toList⟩ : RawMsg) ∈ [(⟨"Tool".toList, "hi".toList⟩ : RawMsg)] ∧
      rustToLowercase ("Tool".toList) ≠ "system".toList ∧
      rustToLowercase ("Tool".toList) ≠ "user".toList ∧
      rustToLowercase ("Tool".toList) ≠ "assistant".toList ∧
      (⟨.Other (rustToLowercase (⟨"Tool".toList, "hi".toList⟩ : RawMsg).role),
        normContent (⟨"Tool".toList, "hi".toList⟩ : RawMsg).content⟩ : Msg) ∈
        (normalize [⟨"Tool".toList, "hi".toList⟩]).messages :=
  ⟨by decide, by decide, by decide, by decide,
    claim_c5_amended [⟨"Tool".toList, "hi".toList⟩] ⟨"Tool".toList, "hi".toList⟩
      (by decide) (by decide) (by decide) (by decide)⟩

/-- C6: `load_from_bytes` returns a fatal error exactly as the claim
states: `Non-UTF8 file` when the bytes do not decode (checked before any
parsing, in both size branches), `JSON array parse error` when the first
non-whitespace character is `'['` and the whole-buffer array decode fails;
in every other case it returns a successful result. -/
theorem claim_c6 (utf8 : List Nat → Option Text) (dec : Text → Option RawMsg)
    (arrDec : Text → Option (List RawMsg)) (bytes : List Nat) :
    exceptError (load_from_bytes utf8 dec arrDec bytes) =
      loadFatalSpec utf8 arrDec bytes :=
  load_from_bytes_fatal utf8 dec arrDec bytes

/-- C7: the Markdown export is exactly the optional `# System` section
followed by, for each turn in order, the template
`**RoleLabel**␣␣\ncontent\n\n`, with `Other` labels title-cased and the
content emitted raw. -/
theorem claim_c7 (system : Option Text) (messages : List Msg) :
    to_markdown system messages = to_markdown_spec system messages := by
  cases system with
  | none =>
    show messages.foldl (fun out m => out ++ mdTurnTemplate m) [] =
      ([] : Text) ++ (messages.map mdTurnTemplate).flatten
    rw [foldl_append_flatten]
  | some sys =>
    show messages.foldl (fun out m => out ++ mdTurnTemplate m)
        ("# System\n".toList ++ sys ++ "\n\n---\n\n".toList) =
      ("# System\n".toList ++ sys ++ "\n\n---\n\n".toList) ++
        (messages.map mdTurnTemplate).flatten
    rw [foldl_append_flatten]

/-- C8: the unterminated fence `"```python\nprint(1)"` sanitizes to the
same text plus one appended closing fence line, and the HTML fence
converter renders the sanitized text as the well-formed tagged code block
`<pre><code class="language-python">print(1)\n</code></pre>\n`. -/
theorem claim_c8 :
    sanitize_chat_markdown ("```python\nprint(1)".toList) =
        "```python\nprint(1)".toList ++ "\n```".toList ∧
      text_to_html_with_fences (sanitize_chat_markdown ("```python\nprint(1)".toList)) =
        "<pre><code class=\"language-python\">print(1)\n</code></pre>\n".toList := by
  decide

/-- C9: no turn produced by normalize carries the `System` role: that
variant only ever describes the separate system slot. -/
theorem claim_c9 (raws : List RawMsg) (m : Msg)
    (hm : m ∈ (normalize raws).messages) : m.role ≠ Role.System := by
  rw [normalize_messages] at hm
  obtain ⟨r, _, hr⟩ := List.mem_map.mp hm
  rw [← hr, demote]
  split_ifs <;> simp

/-- C9, witness: the no-System-turn property at a concrete one-record
input. -/
theorem claim_c9_witness :
    (⟨.User, "hi".toList⟩ : Msg) ∈ (normalize [⟨"user".toList, "hi".toList⟩]).messages ∧
      (⟨.User, "hi".toList⟩ : Msg).role ≠ Role.System :=
  ⟨by decide, claim_c9 [⟨"user".toList, "hi".toList⟩] ⟨.User, "hi".toList⟩ (by decide)⟩

/-- C10, counterexample: `"a\n\r\n"` ends in exactly one newline character
(its last character is `'\n'` and the character before it is `'\r'`, not a
newline), yet its sanitized form `"a\n"` still ends with a newline — the
claim's universal statement fails when a carriage return precedes the
final newline. -/
theorem claim_c10_counterexample :
    ("a\n\r\n".toList).getLast? = some '\n' ∧
      ("a\n\r\n".toList).dropLast.getLast? ≠ some '\n' ∧
      sanitize_chat_markdown ("a\n\r\n".toList) = "a\n".toList ∧
      (sanitize_chat_markdown ("a\n\r\n".toList)).getLast? = some '\n' := by
  decide

/-- C10, amended: the sanitizer rejoins the processed lines with `"\n"`,
so for every input ending in exactly one newline character whose preceding
character is neither a newline nor a carriage return, the output does not
end with that newline; in particular the sanitizer is not the identity on
balanced text carrying a trailing newline. -/
theorem claim_c10_amended (y : Text) (c : Char) (hn : c ≠ '\n') (hr : c ≠ '\r') :
    (sanitize_chat_markdown (y ++ [c, '\n'])).getLast? ≠ some '\n' :=
  sanitize_snoc_getLast y c hn hr

/-- C10, witness: the amended statement at `"a\n"`, whose sanitized form
is `"a"`. -/
theorem claim_c10_witness :
    ('a' ≠ '\n') ∧ ('a' ≠ '\r') ∧
      (sanitize_chat_markdown (([] : Text) ++ ['a', '\n'])).getLast? ≠ some '\n' ∧
      sanitize_chat_markdown ("a\n".toList) = "a".toList :=
  ⟨by decide, by decide, claim_c10_amended [] 'a' (by decide) (by decide), by decide⟩

end LogViewer
